import Mathlib

/-!
# Verification of the Boopin attendance dashboard's aggregation and export logic

This file gives a shallow embedding, in Lean, of the data-processing core of the
attendance dashboard: the client-side employee deduplication (`loadEmployees`),
the weekly per-employee aggregation (`loadWeeklyEmployeeData`), the CSV export
helpers (`escapeCSV`, `exportToCSV`, `calculateAttendanceRate`, `roundHours`),
the error-handling wrapper (`handleSupabaseError`) and the paginated fetch loop
of `loadEmployees`.  JavaScript numbers are modelled as exact rationals, JS
strings as Lean strings, and `null`/`undefined` as `Option`.
-/

namespace Boopin

/-- Whitespace test used by JS `String.prototype.trim` (the characters that can
actually occur in this data set: space, tab, newline, carriage return, vertical
tab, form feed). -/
def isJsWhitespace (c : Char) : Bool :=
  c = ' ' || c = '\t' || c = '\n' || c = '\r' || c = '\x0b' || c = '\x0c'

/-- Trim leading and trailing whitespace from a character list. -/
def trimChars (l : List Char) : List Char :=
  ((l.dropWhile isJsWhitespace).reverse.dropWhile isJsWhitespace).reverse

/-- Embedding of `String(x).trim()` on a JS string value. -/
def jsTrim (s : String) : String := ⟨trimChars s.data⟩

/-- A row of the `daily_employee_records` table (interface `EmployeeRecord` in
`lib/types.ts`).  Optional columns are `Option`; `work_hours` is an exact
rational standing for the JS number. -/
structure EmployeeRecord where
  emp_code : String
  name : String
  date : String
  check_in : Option String
  check_out : Option String
  work_hours : Option ℚ
  total_punches : Option ℕ
  status : Option String
  time_category : Option String
deriving DecidableEq, Repr

/-- Interface `Employee` of `lib/types.ts` (the fields `loadEmployees` fills). -/
structure Employee where
  emp_code : String
  name : String
  is_active : Bool
deriving DecidableEq, Repr

/-- The per-day detail stored in `dailyBreakdown[record.date]` by
`loadWeeklyEmployeeData`. -/
structure DayDetail where
  date : String
  check_in : Option String
  check_out : Option String
  work_hours : Option ℚ
  status : Option String
  time_category : Option String
deriving DecidableEq, Repr

/-- Interface `WeeklyEmployeeData` of `lib/types.ts`: the aggregate built per
employee by `loadWeeklyEmployeeData`.  `dailyBreakdown` is the JS object used
as a date-keyed dictionary, modelled as an association list in insertion
order. -/
structure WeeklyEmployeeData where
  emp_code : String
  name : String
  days : List EmployeeRecord
  totalDays : ℕ
  presentDays : ℕ
  leaveDays : ℕ
  totalHours : ℚ
  onTimeDays : ℕ
  lateDays : ℕ
  dailyBreakdown : List (String × DayDetail)
deriving DecidableEq, Repr

/-- Embedding of `['On Time', 'On-time Check-in', 'Early Check-in'].includes(record.time_category)`. -/
def isOnTimeCategory (tc : Option String) : Bool :=
  match tc with
  | some s => ["On Time", "On-time Check-in", "Early Check-in"].contains s
  | none => false

/-- Embedding of `['Late Check-in', 'Late'].includes(record.time_category)`. -/
def isLateCategory (tc : Option String) : Bool :=
  match tc with
  | some s => ["Late Check-in", "Late"].contains s
  | none => false

/-- The detail object stored under `record.date` in the daily breakdown. -/
def recordDetail (r : EmployeeRecord) : DayDetail :=
  { date := r.date
    check_in := r.check_in
    check_out := r.check_out
    work_hours := r.work_hours
    status := r.status
    time_category := r.time_category }

/-- JS object property assignment `bd[d] = v`: overwrite in place when the key
exists, append otherwise. -/
def setBreakdown (bd : List (String × DayDetail)) (d : String) (v : DayDetail) :
    List (String × DayDetail) :=
  if bd.any (fun p => p.1 == d) then bd.map (fun p => if p.1 == d then (d, v) else p)
  else bd ++ [(d, v)]

/-- The fresh aggregate inserted by `loadWeeklyEmployeeData` when an
`emp_code` is first seen. -/
def freshWeekly (c n : String) : WeeklyEmployeeData :=
  { emp_code := c
    name := n
    days := []
    totalDays := 0
    presentDays := 0
    leaveDays := 0
    totalHours := 0
    onTimeDays := 0
    lateDays := 0
    dailyBreakdown := [] }

/-- The mutation `loadWeeklyEmployeeData` performs on an employee's aggregate
for one record: push the record, bump `totalDays`, store the daily breakdown,
then update present/leave, hours and on-time/late counters. -/
def addRecord (e : WeeklyEmployeeData) (r : EmployeeRecord) : WeeklyEmployeeData :=
  let e1 := { e with
    days := e.days ++ [r]
    totalDays := e.totalDays + 1
    dailyBreakdown := setBreakdown e.dailyBreakdown r.date (recordDetail r) }
  if r.status == some "Present" then
    let e2 := { e1 with
      presentDays := e1.presentDays + 1
      totalHours := e1.totalHours + r.work_hours.getD 0 }
    if isOnTimeCategory r.time_category then { e2 with onTimeDays := e2.onTimeDays + 1 }
    else if isLateCategory r.time_category then { e2 with lateDays := e2.lateDays + 1 }
    else e2
  else { e1 with leaveDays := e1.leaveDays + 1 }

/-- One iteration of the `data?.forEach(record => ...)` loop of
`loadWeeklyEmployeeData` over the `employeeMap` (a JS `Map`, modelled as a list
of aggregates in insertion order, keyed by `emp_code`). -/
def weeklyStep (m : List WeeklyEmployeeData) (r : EmployeeRecord) :
    List WeeklyEmployeeData :=
  let c := jsTrim r.emp_code
  if c = "" then m
  else
    let m1 := if ((m.find? fun e => e.emp_code == c)).isSome then m
              else m ++ [freshWeekly c (jsTrim r.name)]
    m1.map fun e => if e.emp_code == c then addRecord e r else e

/-- The grouping step of `loadWeeklyEmployeeData`: fold the fetched records
into the employee map (values in insertion order, as `Array.from` yields). -/
def weeklyGroup (rs : List EmployeeRecord) : List WeeklyEmployeeData :=
  rs.foldl weeklyStep []

/-- The processed result of `loadWeeklyEmployeeData`:
`Array.from(employeeMap.values()).sort((a, b) => a.name.localeCompare(b.name))`,
with the locale comparison modelled as the string order. -/
def weeklyProcessed (rs : List EmployeeRecord) : List WeeklyEmployeeData :=
  (weeklyGroup rs).mergeSort fun a b => a.name ≤ b.name

/-- Number of fetched records carrying (after `String(..).trim()`
normalisation) a given employee code. -/
def codeCount (c : String) (rs : List EmployeeRecord) : ℕ :=
  rs.countP fun r => jsTrim r.emp_code == c

/-- Number of a code's records whose `status` is `'Present'`. -/
def presentCount (c : String) (rs : List EmployeeRecord) : ℕ :=
  rs.countP fun r => jsTrim r.emp_code == c && r.status == some "Present"

/-- Number of a code's records whose `status` is not `'Present'`. -/
def leaveCount (c : String) (rs : List EmployeeRecord) : ℕ :=
  rs.countP fun r => jsTrim r.emp_code == c && !(r.status == some "Present")

/-- Sum of `work_hours` (missing contributing 0) over a code's `'Present'`
records. -/
def presentHours (c : String) (rs : List EmployeeRecord) : ℚ :=
  (((rs.filter fun r => jsTrim r.emp_code == c && r.status == some "Present")).map
    fun r => r.work_hours.getD 0).sum

/-- One iteration of the deduplication loop of `loadEmployees`: skip records
whose trimmed code or name is empty, otherwise insert the employee on first
occurrence of the trimmed code. -/
def employeeStep (m : List Employee) (r : EmployeeRecord) : List Employee :=
  let c := jsTrim r.emp_code
  let n := jsTrim r.name
  if c ≠ "" ∧ n ≠ "" then
    if ((m.find? fun e => e.emp_code == c)).isSome then m
    else m ++ [{ emp_code := c, name := n, is_active := true }]
  else m

/-- The `uniqueEmployeesMap` of `loadEmployees`, values in insertion order. -/
def dedupEmployees (rs : List EmployeeRecord) : List Employee :=
  rs.foldl employeeStep []

/-- The employee list `loadEmployees` returns:
`Array.from(uniqueEmployeesMap.values()).sort((a, b) => a.name.localeCompare(b.name))`,
with the locale comparison modelled as the string order. -/
def loadEmployeesResult (rs : List EmployeeRecord) : List Employee :=
  (dedupEmployees rs).mergeSort fun a b => a.name ≤ b.name

/-- First fetched record for a code that passes the validity check of
`loadEmployees` (non-empty trimmed code and name). -/
def firstValidRecord (c : String) (rs : List EmployeeRecord) :
    Option EmployeeRecord :=
  rs.find? fun r => jsTrim r.emp_code == c && !(jsTrim r.name == "")

/-- JS `Math.round` on an exact rational: round half toward positive
infinity. -/
def jsMathRound (x : ℚ) : ℤ := ⌊x + 1 / 2⌋

/-- Function `roundHours` of `lib/formatters.ts` (also inlined in `exportToCSV` and
`getWorkHoursStats`): `Math.round(hours * 10) / 10`. -/
def roundHours (hours : ℚ) : ℚ := (jsMathRound (hours * 10) : ℚ) / 10

/-- Modelled from the spec: "standard round-half-up at the tenths place",
written with Mathlib's standard `round` (round half up) applied at the tenths
digit. -/
def roundHalfUpTenths (x : ℚ) : ℚ := ((round (10 * x) : ℤ) : ℚ) / 10

/-- Function `calculateAttendanceRate` of `lib/utils.ts`: 0 when `totalDays` is 0,
otherwise `Math.round((presentDays / totalDays) * 100)`. -/
def calculateAttendanceRate (presentDays totalDays : ℕ) : ℤ :=
  if totalDays = 0 then 0
  else jsMathRound (((presentDays : ℚ) / (totalDays : ℚ)) * 100)

/-- Does the string form contain a comma, double quote or newline? -/
def needsQuoting (s : String) : Bool :=
  s.data.any fun c => c = ',' || c = '"' || c = '\n'

/-- Embedding of `stringValue.replace(/"/g, '""')`: double every double quote. -/
def doubleQuotes (l : List Char) : List Char :=
  l.flatMap fun c => if c = '"' then ['"', '"'] else [c]

/-- Function `escapeCSV` of `lib/utils.ts`.  `none` stands for `null`/`undefined`. -/
def escapeCSV (v : Option String) : String :=
  match v with
  | none => ""
  | some s =>
    if needsQuoting s then "\"" ++ (⟨doubleQuotes s.data⟩ : String) ++ "\""
    else s

/-- A row of `daily_summaries` (interface `DailySummary`), the fields the
daily export serialises. -/
structure DailySummary where
  date : String
  total_employees_present : ℤ
  early_count : ℤ
  ontime_count : ℤ
  acceptable_count : ℤ
  late_count : ℤ
  ontime_rate : ℚ
  earliest_checkin : Option String
  latest_checkin : Option String
deriving DecidableEq, Repr

/-- A row of `weekly_summaries` (interface `WeeklySummary`), the fields the
weekly export serialises. -/
structure WeeklySummary where
  week_start : String
  week_end : String
  total_employees : ℤ
  perfect_attendance_count : ℤ
  perfect_attendance_rate : ℚ
deriving DecidableEq, Repr

/-- Embedding of `String(x)` for an optional JS number in a `x || ''` position: nullish or
zero yields the empty string (0 is falsy in JS). -/
def numOrEmpty (o : Option ℚ) : String :=
  match o with
  | none => ""
  | some q => if q = 0 then "" else toString q

/-- Embedding of `String(x)` for an optional JS integer in a `x || ''` position. -/
def natOrEmpty (o : Option ℕ) : String :=
  match o with
  | none => ""
  | some n => if n = 0 then "" else toString n

/-- Header row of the `'daily'` export in `exportToCSV`. -/
def dailyHeaders : List String :=
  ["Date", "Total Employees", "Early Count", "On-time Count", "Acceptable Count",
   "Late Count", "On-time Rate (%)", "Earliest Check-in", "Latest Check-in"]

/-- Header row of the `'weekly'` export in `exportToCSV`. -/
def weeklyHeaders : List String :=
  ["Week Start", "Week End", "Total Employees", "Perfect Attendance Count",
   "Perfect Attendance Rate (%)"]

/-- Header row of the `'weeklyDetails'` export in `exportToCSV`. -/
def weeklyDetailsHeaders : List String :=
  ["Employee Code", "Name", "Total Days", "Present Days", "Leave Days",
   "Total Hours", "On-time Days", "Late Days", "Attendance Rate (%)"]

/-- Header row of the `'employee'` / `'monthly'` export in `exportToCSV`. -/
def employeeHeaders : List String :=
  ["Date", "Employee Code", "Name", "Check In", "Check Out", "Work Hours",
   "Total Punches", "Status", "Time Category"]

/-- Fields of a `'daily'` data line. -/
def dailyRow (row : DailySummary) : List String :=
  [escapeCSV (some row.date),
   escapeCSV (some (toString row.total_employees_present)),
   escapeCSV (some (toString row.early_count)),
   escapeCSV (some (toString row.ontime_count)),
   escapeCSV (some (toString row.acceptable_count)),
   escapeCSV (some (toString row.late_count)),
   escapeCSV (some (toString row.ontime_rate)),
   escapeCSV (some (row.earliest_checkin.getD "")),
   escapeCSV (some (row.latest_checkin.getD ""))]

/-- Fields of a `'weekly'` data line. -/
def weeklyRow (row : WeeklySummary) : List String :=
  [escapeCSV (some row.week_start),
   escapeCSV (some row.week_end),
   escapeCSV (some (toString row.total_employees)),
   escapeCSV (some (toString row.perfect_attendance_count)),
   escapeCSV (some (toString row.perfect_attendance_rate))]

/-- Fields of a `'weeklyDetails'` data line; the attendance rate is computed
with `calculateAttendanceRate` and the hours are rounded to one decimal. -/
def weeklyDetailsRow (row : WeeklyEmployeeData) : List String :=
  [escapeCSV (some row.emp_code),
   escapeCSV (some row.name),
   escapeCSV (some (toString row.totalDays)),
   escapeCSV (some (toString row.presentDays)),
   escapeCSV (some (toString row.leaveDays)),
   escapeCSV (some (toString (roundHours row.totalHours))),
   escapeCSV (some (toString row.onTimeDays)),
   escapeCSV (some (toString row.lateDays)),
   escapeCSV (some (toString (calculateAttendanceRate row.presentDays row.totalDays)))]

/-- Fields of an `'employee'` / `'monthly'` data line. -/
def employeeRow (row : EmployeeRecord) : List String :=
  [escapeCSV (some row.date),
   escapeCSV (some row.emp_code),
   escapeCSV (some row.name),
   escapeCSV (some (row.check_in.getD "")),
   escapeCSV (some (row.check_out.getD "")),
   escapeCSV (some (numOrEmpty row.work_hours)),
   escapeCSV (some (natOrEmpty row.total_punches)),
   escapeCSV (some (row.status.getD "")),
   escapeCSV (some (row.time_category.getD ""))]

/-- Embedding of `fields.join(',')`. -/
def joinComma (fields : List String) : String := String.intercalate "," fields

/-- The string accumulation of `exportToCSV`: the joined header line plus `\n`,
then each joined data line plus `\n`. -/
def csvOf (headers : List String) (rows : List (List String)) : String :=
  rows.foldl (fun acc row => acc ++ joinComma row ++ "\n") (joinComma headers ++ "\n")

/-- The data given to `exportToCSV`, tagged with the export kind. -/
inductive ExportData where
  | daily (rows : List DailySummary)
  | weekly (rows : List WeeklySummary)
  | weeklyDetails (rows : List WeeklyEmployeeData)
  | employee (rows : List EmployeeRecord)
  | monthly (rows : List EmployeeRecord)
deriving Repr

/-- Function `exportToCSV` as a content builder: `none` models the `'No data to export'`
alert on an empty list, `some` carries the CSV text handed to the download
blob. -/
def exportToCSV : ExportData → Option String
  | .daily rows =>
    if rows.isEmpty then none else some (csvOf dailyHeaders (rows.map dailyRow))
  | .weekly rows =>
    if rows.isEmpty then none else some (csvOf weeklyHeaders (rows.map weeklyRow))
  | .weeklyDetails rows =>
    if rows.isEmpty then none
    else some (csvOf weeklyDetailsHeaders (rows.map weeklyDetailsRow))
  | .employee rows =>
    if rows.isEmpty then none else some (csvOf employeeHeaders (rows.map employeeRow))
  | .monthly rows =>
    if rows.isEmpty then none else some (csvOf employeeHeaders (rows.map employeeRow))

/-- Modelled from the spec (section 6): the daily export column list. -/
def specDailyColumns : List String :=
  ["Date", "Total Employees", "Early Count", "On-time Count", "Acceptable Count",
   "Late Count", "On-time Rate (%)", "Earliest Check-in", "Latest Check-in"]

/-- Modelled from the spec (section 6): the weekly export column list. -/
def specWeeklyColumns : List String :=
  ["Week Start", "Week End", "Total Employees", "Perfect Attendance Count",
   "Perfect Attendance Rate (%)"]

/-- Modelled from the spec (section 6): the weeklyDetails export column list. -/
def specWeeklyDetailsColumns : List String :=
  ["Employee Code", "Name", "Total Days", "Present Days", "Leave Days",
   "Total Hours", "On-time Days", "Late Days", "Attendance Rate (%)"]

/-- Modelled from the spec (section 6): the employee/monthly export column
list. -/
def specEmployeeColumns : List String :=
  ["Date", "Employee Code", "Name", "Check In", "Check Out", "Work Hours",
   "Total Punches", "Status", "Time Category"]

/-- The shape of the value a rejected Supabase promise carries: an object with
a `message`, a bare string, or anything else. -/
inductive SupabaseErrorValue where
  | withMessage (message : String)
  | plainString (s : String)
  | other
deriving DecidableEq, Repr

/-- Function `handleSupabaseError` of `lib/supabase.ts`. -/
def handleSupabaseError (error : SupabaseErrorValue) (context : String) : String :=
  match error with
  | .withMessage m => context ++ ": " ++ m
  | .plainString s => context ++ ": " ++ s
  | .other => context ++ ": Unknown error occurred"

/-- The `useEmployeeData` hook's state cells (`useState` values). -/
structure HookState where
  employees : List Employee
  employeeRecords : List EmployeeRecord
  loading : Bool
  error : String
deriving DecidableEq, Repr

/-- The `{ data, error }` object each load operation returns. -/
structure LoadResult (α : Type) where
  data : Option α
  error : Option String
deriving Repr

/-- The per-record normalisation applied by `loadEmployeeData` and
`loadEmployeeMonthlyData`. -/
def normalizeRecord (r : EmployeeRecord) : EmployeeRecord :=
  { r with emp_code := jsTrim r.emp_code, name := jsTrim r.name }

/-- Operation `loadEmployees` as a state transformer over the query outcome (the
paginated fetch either yields all rows or rejects). -/
def loadEmployeesOp (st : HookState) (query : Except SupabaseErrorValue (List EmployeeRecord)) :
    HookState × LoadResult (List Employee) :=
  let st1 := { st with loading := true, error := "" }
  match query with
  | .ok allRecords =>
    let uniqueEmployees := loadEmployeesResult allRecords
    ({ st1 with employees := uniqueEmployees, loading := false },
     { data := some uniqueEmployees, error := none })
  | .error e =>
    let errorMsg := handleSupabaseError e "Employee Loading"
    ({ st1 with error := errorMsg, employees := [], loading := false },
     { data := none, error := some errorMsg })

/-- Operation `loadEmployeeData` as a state transformer over the query outcome. -/
def loadEmployeeDataOp (st : HookState) (query : Except SupabaseErrorValue (List EmployeeRecord)) :
    HookState × LoadResult (List EmployeeRecord) :=
  let st1 := { st with loading := true, error := "" }
  match query with
  | .ok data =>
    let normalizedData := data.map normalizeRecord
    ({ st1 with employeeRecords := normalizedData, loading := false },
     { data := some normalizedData, error := none })
  | .error e =>
    let errorMsg := handleSupabaseError e "Employee Records Loading"
    ({ st1 with error := errorMsg, employeeRecords := [], loading := false },
     { data := none, error := some errorMsg })

/-- Operation `loadEmployeeMonthlyData` as a state transformer over the query outcome. -/
def loadEmployeeMonthlyDataOp (st : HookState)
    (query : Except SupabaseErrorValue (List EmployeeRecord)) :
    HookState × LoadResult (List EmployeeRecord) :=
  let st1 := { st with loading := true, error := "" }
  match query with
  | .ok data =>
    let normalizedData := data.map normalizeRecord
    ({ st1 with employeeRecords := normalizedData, loading := false },
     { data := some normalizedData, error := none })
  | .error e =>
    let errorMsg := handleSupabaseError e "Monthly Employee Data Loading"
    ({ st1 with error := errorMsg, employeeRecords := [], loading := false },
     { data := none, error := some errorMsg })

/-- Operation `loadWeeklyEmployeeData` as a state transformer over the query outcome.
It never writes `employeeRecords`; on failure it returns `data: []`. -/
def loadWeeklyEmployeeDataOp (st : HookState)
    (query : Except SupabaseErrorValue (List EmployeeRecord)) :
    HookState × LoadResult (List WeeklyEmployeeData) :=
  let st1 := { st with loading := true, error := "" }
  match query with
  | .ok data =>
    let processedData := weeklyProcessed data
    ({ st1 with loading := false },
     { data := some processedData, error := none })
  | .error e =>
    let errorMsg := handleSupabaseError e "Weekly Employee Data Loading"
    ({ st1 with error := errorMsg, loading := false },
     { data := some [], error := some errorMsg })

/-- A sample present record used by concrete witnesses. -/
def sampleRecord : EmployeeRecord :=
  { emp_code := "1"
    name := "Alice"
    date := "2025-01-06"
    check_in := some "09:00"
    check_out := some "18:00"
    work_hours := some 8
    total_punches := some 2
    status := some "Present"
    time_category := some "On Time" }

/-- A sample leave record used by concrete witnesses. -/
def sampleLeaveRecord : EmployeeRecord :=
  { emp_code := "1"
    name := "Alice"
    date := "2025-01-07"
    check_in := none
    check_out := none
    work_hours := none
    total_punches := none
    status := some "Leave"
    time_category := none }

/-- A record whose name trims to the empty string (skipped by
`loadEmployees`). -/
def blankNameRecord : EmployeeRecord :=
  { emp_code := "7"
    name := " "
    date := "2025-01-06"
    check_in := none
    check_out := none
    work_hours := none
    total_punches := none
    status := some "Present"
    time_category := none }

/-- A newer record for the same employee code as `sampleRecord` but carrying a
different name, used by concrete witnesses. -/
def renamedRecord : EmployeeRecord :=
  { emp_code := "1"
    name := "Alicia"
    date := "2025-01-07"
    check_in := some "09:05"
    check_out := some "18:00"
    work_hours := some 8
    total_punches := some 2
    status := some "Present"
    time_category := some "On Time" }

/-- A sample daily summary row used by concrete witnesses. -/
def sampleDailySummary : DailySummary :=
  { date := "2025-01-06"
    total_employees_present := 40
    early_count := 5
    ontime_count := 30
    acceptable_count := 3
    late_count := 2
    ontime_rate := 75
    earliest_checkin := some "08:12"
    latest_checkin := some "10:45" }

/-- A sample hook state with one stored record, used by concrete
counterexamples. -/
def sampleState : HookState :=
  { employees := []
    employeeRecords := [sampleRecord]
    loading := false
    error := "" }

end Boopin

namespace Boopin

/-- Invariant of the `employeeMap` fold in `loadWeeklyEmployeeData`: after
processing `rs`, the entry found for a non-empty code carries exactly the
counts and hour sum of that code's processed records, and absence of an entry
means no processed record carried the code. -/
def weeklyInv (m : List WeeklyEmployeeData) (rs : List EmployeeRecord) : Prop :=
  ∀ c : String, c ≠ "" →
    (((m.find? fun e => e.emp_code == c)) = none → codeCount c rs = 0) ∧
    ∀ e, ((m.find? fun e2 => e2.emp_code == c)) = some e →
      e.emp_code = c ∧ e.totalDays = codeCount c rs ∧
      e.presentDays = presentCount c rs ∧ e.leaveDays = leaveCount c rs ∧
      e.totalHours = presentHours c rs

theorem dropWhile_head_false {α : Type} {p : α → Bool} :
    ∀ {l t : List α} {a : α}, l.dropWhile p = a :: t → p a = false := by
  intro l
  induction l with
  | nil => intro t a h; simp at h
  | cons x xs ih =>
    intro t a h
    by_cases hx : p x
    · rw [List.dropWhile_cons, if_pos hx] at h
      exact ih h
    · rw [List.dropWhile_cons, if_neg hx] at h
      injection h with h1 h2
      subst h1
      simpa using hx

theorem trimChars_props {l : List Char} {a : Char} {t : List Char}
    (h : trimChars l = a :: t) :
    isJsWhitespace a = false ∧
      ∀ z, (a :: t).getLast? = some z → isJsWhitespace z = false := by
  unfold trimChars at h
  constructor
  · obtain ⟨s, hs⟩ :=
      @List.dropWhile_suffix _ ((l.dropWhile isJsWhitespace).reverse) isJsWhitespace
    have hA : ((l.dropWhile isJsWhitespace).reverse.dropWhile isJsWhitespace).reverse
        ++ s.reverse = l.dropWhile isJsWhitespace := by
      have h5 := congrArg List.reverse hs
      simpa [List.reverse_append] using h5
    rw [h] at hA
    have h6 : l.dropWhile isJsWhitespace = a :: (t ++ s.reverse) := by
      rw [← hA]
      simp
    exact dropWhile_head_false h6
  · intro z hz
    have hB : (l.dropWhile isJsWhitespace).reverse.dropWhile isJsWhitespace =
        t.reverse ++ [a] := by
      have h5 := congrArg List.reverse h
      simpa using h5
    cases hBc : (l.dropWhile isJsWhitespace).reverse.dropWhile isJsWhitespace with
    | nil => rw [hBc] at hB; simp at hB
    | cons b u =>
      have hb : isJsWhitespace b = false := dropWhile_head_false hBc
      have h7 : t.reverse ++ [a] = b :: u := by rw [← hB, hBc]
      have h4 : (a :: t).reverse.head? = (a :: t).getLast? := List.head?_reverse (a :: t)
      rw [List.reverse_cons, h7] at h4
      simp only [List.head?_cons] at h4
      rw [hz] at h4
      injection h4 with h8
      rw [h8] at hb
      exact hb

end Boopin

namespace Boopin

theorem trimChars_eq_self {l : List Char}
    (hhead : ∀ a t, l = a :: t → isJsWhitespace a = false)
    (hlast : ∀ z, l.getLast? = some z → isJsWhitespace z = false) :
    trimChars l = l := by
  cases l with
  | nil => rfl
  | cons a t =>
    have ha := hhead a t rfl
    have h1 : List.dropWhile isJsWhitespace (a :: t) = a :: t := by
      rw [List.dropWhile_cons, if_neg (by simp [ha])]
    unfold trimChars
    rw [h1]
    cases hr : (a :: t).reverse with
    | nil => simp at hr
    | cons z w =>
      have hz : isJsWhitespace z = false := by
        apply hlast
        have h2 := List.head?_reverse (a :: t)
        rw [hr] at h2
        simpa using h2.symm
      have h3 : List.dropWhile isJsWhitespace (z :: w) = z :: w := by
        rw [List.dropWhile_cons, if_neg (by simp [hz])]
      rw [h3, ← hr, List.reverse_reverse]

theorem trimChars_idem (l : List Char) : trimChars (trimChars l) = trimChars l := by
  cases h : trimChars l with
  | nil => rfl
  | cons a t =>
    obtain ⟨h1, h2⟩ := trimChars_props h
    apply trimChars_eq_self
    · intro a2 t2 heq
      injection heq with heq1 heq2
      rw [← heq1]
      exact h1
    · exact h2

theorem jsTrim_data (s : String) : (jsTrim s).data = trimChars s.data := rfl

theorem jsTrim_idem (s : String) : jsTrim (jsTrim s) = jsTrim s := by
  apply String.ext
  rw [jsTrim_data, jsTrim_data, trimChars_idem]

theorem countP_and_split {α : Type} (p q : α → Bool) (l : List α) :
    l.countP (fun a => p a && q a) + l.countP (fun a => p a && !q a) = l.countP p := by
  induction l with
  | nil => rfl
  | cons a t ih =>
    simp only [List.countP_cons]
    by_cases hp : p a <;> by_cases hq : q a <;> simp [hp, hq] <;> omega

theorem present_add_leave (c : String) (rs : List EmployeeRecord) :
    presentCount c rs + leaveCount c rs = codeCount c rs := by
  unfold presentCount leaveCount codeCount
  exact countP_and_split _ _ rs

theorem zero_code_counts {c : String} {rs : List EmployeeRecord}
    (h : codeCount c rs = 0) :
    presentCount c rs = 0 ∧ leaveCount c rs = 0 ∧ presentHours c rs = 0 := by
  have hsplit := present_add_leave c rs
  refine ⟨by omega, by omega, ?_⟩
  have hfil : (rs.filter fun r => jsTrim r.emp_code == c && r.status == some "Present")
      = [] := by
    rw [List.filter_eq_nil_iff]
    intro r hr
    rw [codeCount, List.countP_eq_zero] at h
    have h2 := h r hr
    simp only [Bool.and_eq_true, not_and] at h2 ⊢
    intro hcode
    exact absurd hcode h2
  rw [presentHours, hfil]
  rfl

theorem addRecord_emp_code (e : WeeklyEmployeeData) (r : EmployeeRecord) :
    (addRecord e r).emp_code = e.emp_code := by
  simp only [addRecord]
  split <;> [split <;> [rfl; split <;> rfl]; rfl]

theorem addRecord_name (e : WeeklyEmployeeData) (r : EmployeeRecord) :
    (addRecord e r).name = e.name := by
  simp only [addRecord]
  split <;> [split <;> [rfl; split <;> rfl]; rfl]

theorem addRecord_totalDays (e : WeeklyEmployeeData) (r : EmployeeRecord) :
    (addRecord e r).totalDays = e.totalDays + 1 := by
  simp only [addRecord]
  split <;> [split <;> [rfl; split <;> rfl]; rfl]

theorem addRecord_presentDays (e : WeeklyEmployeeData) (r : EmployeeRecord) :
    (addRecord e r).presentDays =
      e.presentDays + (if r.status == some "Present" then 1 else 0) := by
  simp only [addRecord]
  split
  · split <;> [rfl; split <;> rfl]
  · simp

theorem addRecord_leaveDays (e : WeeklyEmployeeData) (r : EmployeeRecord) :
    (addRecord e r).leaveDays =
      e.leaveDays + (if r.status == some "Present" then 0 else 1) := by
  simp only [addRecord]
  split
  · split <;> [simp; split <;> simp]
  · rfl

theorem addRecord_totalHours (e : WeeklyEmployeeData) (r : EmployeeRecord) :
    (addRecord e r).totalHours =
      e.totalHours + (if r.status == some "Present" then r.work_hours.getD 0 else 0) := by
  simp only [addRecord]
  split
  · split <;> [rfl; split <;> rfl]
  · simp

theorem find?_map_preserve (m : List WeeklyEmployeeData) (c c0 : String)
    (r : EmployeeRecord) :
    ((m.map fun e => if e.emp_code == c0 then addRecord e r else e).find?
        fun e => e.emp_code == c) =
      Option.map (fun e => if e.emp_code == c0 then addRecord e r else e)
        (m.find? fun e => e.emp_code == c) := by
  have hp : ((fun e => e.emp_code == c) ∘
      fun e : WeeklyEmployeeData => if e.emp_code == c0 then addRecord e r else e) =
      fun e : WeeklyEmployeeData => e.emp_code == c := by
    funext e
    by_cases h : (e.emp_code == c0) = true <;>
      simp [Function.comp, h, addRecord_emp_code]
  rw [List.find?_map, hp]

end Boopin

namespace Boopin

theorem codeCount_append_single (c : String) (rs : List EmployeeRecord)
    (r : EmployeeRecord) :
    codeCount c (rs ++ [r]) =
      codeCount c rs + (if jsTrim r.emp_code == c then 1 else 0) := by
  simp [codeCount, List.countP_append, List.countP_cons]

theorem presentCount_append_single (c : String) (rs : List EmployeeRecord)
    (r : EmployeeRecord) :
    presentCount c (rs ++ [r]) = presentCount c rs +
      (if jsTrim r.emp_code == c && r.status == some "Present" then 1 else 0) := by
  simp [presentCount, List.countP_append, List.countP_cons]

theorem leaveCount_append_single (c : String) (rs : List EmployeeRecord)
    (r : EmployeeRecord) :
    leaveCount c (rs ++ [r]) = leaveCount c rs +
      (if jsTrim r.emp_code == c && !(r.status == some "Present") then 1 else 0) := by
  simp [leaveCount, List.countP_append, List.countP_cons]

theorem presentHours_append_single (c : String) (rs : List EmployeeRecord)
    (r : EmployeeRecord) :
    presentHours c (rs ++ [r]) = presentHours c rs +
      (if jsTrim r.emp_code == c && r.status == some "Present"
       then r.work_hours.getD 0 else 0) := by
  unfold presentHours
  rw [List.filter_append]
  by_cases h : (jsTrim r.emp_code == c && r.status == some "Present") = true <;>
    simp [h]

theorem weeklyInv_nil : weeklyInv [] [] := by
  intro c hc
  constructor
  · intro _
    rfl
  · intro e he
    simp at he

theorem weeklyInv_step (m : List WeeklyEmployeeData) (rs : List EmployeeRecord)
    (r : EmployeeRecord) (h : weeklyInv m rs) :
    weeklyInv (weeklyStep m r) (rs ++ [r]) := by
  intro c hc
  by_cases h0 : jsTrim r.emp_code = ""
  · -- the record has an empty trimmed code and is skipped
    have hstep : weeklyStep m r = m := by
      simp [weeklyStep, h0]
    have hbeq : (jsTrim r.emp_code == c) = false := by
      rw [beq_eq_false_iff_ne, h0]
      exact fun hcc => hc hcc.symm
    have hcnt : codeCount c (rs ++ [r]) = codeCount c rs := by
      rw [codeCount_append_single, hbeq]
      simp
    have hpre : presentCount c (rs ++ [r]) = presentCount c rs := by
      rw [presentCount_append_single, hbeq]
      simp
    have hlea : leaveCount c (rs ++ [r]) = leaveCount c rs := by
      rw [leaveCount_append_single, hbeq]
      simp
    have hhrs : presentHours c (rs ++ [r]) = presentHours c rs := by
      rw [presentHours_append_single, hbeq]
      simp
    rw [hstep, hcnt, hpre, hlea, hhrs]
    exact h c hc
  · have hstep : weeklyStep m r =
        (if ((m.find? fun e => e.emp_code == jsTrim r.emp_code)).isSome then m
         else m ++ [freshWeekly (jsTrim r.emp_code) (jsTrim r.name)]).map
          (fun e => if e.emp_code == jsTrim r.emp_code then addRecord e r else e) := by
      simp [weeklyStep, h0]
    by_cases hcc : c = jsTrim r.emp_code
    · -- the processed record carries exactly the code c
      subst hcc
      have hceq : (jsTrim r.emp_code == jsTrim r.emp_code) = true :=
        beq_self_eq_true _
      have hcnt := codeCount_append_single (jsTrim r.emp_code) rs r
      have hpre := presentCount_append_single (jsTrim r.emp_code) rs r
      have hlea := leaveCount_append_single (jsTrim r.emp_code) rs r
      have hhrs := presentHours_append_single (jsTrim r.emp_code) rs r
      rw [hceq] at hcnt hpre hlea hhrs
      simp only [Bool.true_and, if_true] at hcnt hpre hlea hhrs
      by_cases hfound : ((m.find? fun e => e.emp_code == jsTrim r.emp_code)).isSome
      · obtain ⟨e0, he0⟩ := Option.isSome_iff_exists.mp hfound
        obtain ⟨hkey, ht, hpd, hld, hhd⟩ := (h (jsTrim r.emp_code) hc).2 e0 he0
        have hres : ((weeklyStep m r).find? fun e => e.emp_code == jsTrim r.emp_code) =
            some (addRecord e0 r) := by
          rw [hstep, if_pos hfound, find?_map_preserve, he0]
          have hek : (e0.emp_code == jsTrim r.emp_code) = true := beq_iff_eq.mpr hkey
          simp only [Option.map_some']
          rw [if_pos hek]
        constructor
        · intro hnone
          rw [hres] at hnone
          simp at hnone
        · intro e he
          rw [hres, Option.some_inj] at he
          subst he
          refine ⟨by rw [addRecord_emp_code]; exact hkey, ?_, ?_, ?_, ?_⟩
          · rw [addRecord_totalDays, hcnt, ht]
          · rw [addRecord_presentDays, hpre, hpd]
          · rw [addRecord_leaveDays, hlea, hld]
            by_cases hst : (r.status == some "Present") = true <;> simp [hst]
          · rw [addRecord_totalHours, hhrs, hhd]
      · have hnone0 : (m.find? fun e => e.emp_code == jsTrim r.emp_code) = none :=
          Option.not_isSome_iff_eq_none.mp hfound
        have hzero := (h (jsTrim r.emp_code) hc).1 hnone0
        obtain ⟨hz1, hz2, hz3⟩ := zero_code_counts hzero
        have hres : ((weeklyStep m r).find? fun e => e.emp_code == jsTrim r.emp_code) =
            some (addRecord (freshWeekly (jsTrim r.emp_code) (jsTrim r.name)) r) := by
          rw [hstep, if_neg hfound, List.map_append, List.find?_append,
            find?_map_preserve, hnone0]
          simp only [Option.map_none', Option.none_or]
          have hfc : ((freshWeekly (jsTrim r.emp_code) (jsTrim r.name)).emp_code ==
              jsTrim r.emp_code) = true := by
            simp [freshWeekly]
          simp [List.find?_cons, hfc, addRecord_emp_code, freshWeekly]
        constructor
        · intro hnone
          rw [hres] at hnone
          simp at hnone
        · intro e he
          rw [hres, Option.some_inj] at he
          subst he
          refine ⟨by rw [addRecord_emp_code]; simp [freshWeekly], ?_, ?_, ?_, ?_⟩
          · rw [addRecord_totalDays, hcnt, hzero]
            simp [freshWeekly]
          · rw [addRecord_presentDays, hpre, hz1]
            simp [freshWeekly]
          · rw [addRecord_leaveDays, hlea, hz2]
            by_cases hst : (r.status == some "Present") = true <;>
              simp [hst, freshWeekly]
          · rw [addRecord_totalHours, hhrs, hz3]
            by_cases hst : (r.status == some "Present") = true <;>
              simp [hst, freshWeekly]
    · -- the processed record carries some other code
      have hbeq : (jsTrim r.emp_code == c) = false :=
        beq_eq_false_iff_ne.mpr fun hx => hcc hx.symm
      have hcnt : codeCount c (rs ++ [r]) = codeCount c rs := by
        rw [codeCount_append_single, hbeq]
        simp
      have hpre : presentCount c (rs ++ [r]) = presentCount c rs := by
        rw [presentCount_append_single, hbeq]
        simp
      have hlea : leaveCount c (rs ++ [r]) = leaveCount c rs := by
        rw [leaveCount_append_single, hbeq]
        simp
      have hhrs : presentHours c (rs ++ [r]) = presentHours c rs := by
        rw [presentHours_append_single, hbeq]
        simp
      have hres : ((weeklyStep m r).find? fun e => e.emp_code == c) =
          Option.map (fun e => if e.emp_code == jsTrim r.emp_code then addRecord e r else e)
            (m.find? fun e => e.emp_code == c) := by
        rw [hstep]
        by_cases hfound : ((m.find? fun e => e.emp_code == jsTrim r.emp_code)).isSome
        · rw [if_pos hfound, find?_map_preserve]
        · rw [if_neg hfound, List.map_append, List.find?_append, find?_map_preserve]
          have hfc : ((if (freshWeekly (jsTrim r.emp_code) (jsTrim r.name)).emp_code ==
              jsTrim r.emp_code then addRecord (freshWeekly (jsTrim r.emp_code)
                (jsTrim r.name)) r
              else freshWeekly (jsTrim r.emp_code) (jsTrim r.name)).emp_code == c)
              = false := by
            have : ((freshWeekly (jsTrim r.emp_code) (jsTrim r.name)).emp_code ==
                jsTrim r.emp_code) = true := by
              simp [freshWeekly]
            rw [if_pos this, beq_eq_false_iff_ne, addRecord_emp_code]
            simp only [freshWeekly]
            exact fun hx => hcc hx.symm
          simp only [List.map_cons, List.map_nil, List.find?_cons, hfc]
          exact Option.or_none
      rw [hcnt, hpre, hlea, hhrs, hres]
      constructor
      · intro hnone
        rw [Option.map_eq_none'] at hnone
        exact (h c hc).1 hnone
      · intro e he
        rw [Option.map_eq_some'] at he
        obtain ⟨e1, he1, hfe⟩ := he
        obtain ⟨hkey, ht, hpd, hld, hhd⟩ := (h c hc).2 e1 he1
        have : (e1.emp_code == jsTrim r.emp_code) = false := by
          rw [beq_eq_false_iff_ne, hkey]
          exact hcc
        rw [if_neg (by simp [this])] at hfe
        subst hfe
        exact ⟨hkey, ht, hpd, hld, hhd⟩

theorem weeklyInv_foldl (rs : List EmployeeRecord) :
    ∀ (m : List WeeklyEmployeeData) (ps : List EmployeeRecord),
      weeklyInv m ps → weeklyInv (rs.foldl weeklyStep m) (ps ++ rs) := by
  induction rs with
  | nil => intro m ps h; simpa using h
  | cons r t ih =>
    intro m ps h
    have h2 := ih (weeklyStep m r) (ps ++ [r]) (weeklyInv_step m ps r h)
    rw [List.append_assoc] at h2
    simpa using h2

theorem weeklyGroup_inv (rs : List EmployeeRecord) : weeklyInv (weeklyGroup rs) rs := by
  have := weeklyInv_foldl rs [] [] weeklyInv_nil
  simpa [weeklyGroup] using this

end Boopin

namespace Boopin

theorem employee_find?_foldl (rs : List EmployeeRecord) :
    ∀ (m : List Employee) (c : String), c ≠ "" →
      ((rs.foldl employeeStep m).find? fun e => e.emp_code == c) =
        ((m.find? fun e => e.emp_code == c)).or
          ((firstValidRecord c rs).map fun r =>
            { emp_code := c, name := jsTrim r.name, is_active := true }) := by
  induction rs with
  | nil =>
    intro m c hc
    simp [firstValidRecord, Option.or_none]
  | cons r t ih =>
    intro m c hc
    rw [List.foldl_cons]
    by_cases hv : jsTrim r.emp_code ≠ "" ∧ jsTrim r.name ≠ ""
    · by_cases hcc : c = jsTrim r.emp_code
      · have hc0 : jsTrim r.emp_code = c := hcc.symm
        have hpredr : (jsTrim r.emp_code == c && !(jsTrim r.name == "")) = true := by
          rw [hc0]
          simp only [beq_self_eq_true, Bool.true_and, Bool.not_eq_true',
            beq_eq_false_iff_ne]
          exact hv.2
        have hfv : firstValidRecord c (r :: t) = some r := by
          simp [firstValidRecord, List.find?_cons, hpredr]
        rw [hfv]
        by_cases hfound : ((m.find? fun e => e.emp_code == c)).isSome
        · have hstep : employeeStep m r = m := by
            simp only [employeeStep]
            rw [if_pos hv, hc0, if_pos hfound]
          rw [hstep]
          obtain ⟨e, he⟩ := Option.isSome_iff_exists.mp hfound
          rw [ih m c hc, he]
          rfl
        · have hstep : employeeStep m r =
              m ++ [{ emp_code := c, name := jsTrim r.name, is_active := true }] := by
            simp only [employeeStep]
            rw [if_pos hv, hc0, if_neg hfound]
          rw [hstep]
          have hnone : (m.find? fun e => e.emp_code == c) = none :=
            Option.not_isSome_iff_eq_none.mp hfound
          have hih := ih (m ++ [({ emp_code := c, name := jsTrim r.name, is_active := true } : Employee)]) c hc
          rw [hih, List.find?_append, hnone, Option.none_or, Option.none_or]
          have hone : (List.find? (fun e => e.emp_code == c)
              [({ emp_code := c, name := jsTrim r.name, is_active := true } : Employee)]) =
              some ({ emp_code := c, name := jsTrim r.name, is_active := true } : Employee) := by
            simp [List.find?_cons]
          rw [hone]
          rfl
      · have hbeq : (jsTrim r.emp_code == c) = false :=
          beq_eq_false_iff_ne.mpr fun hx => hcc hx.symm
        have hfv : firstValidRecord c (r :: t) = firstValidRecord c t := by
          simp only [firstValidRecord, List.find?_cons, hbeq, Bool.false_and]
        rw [hfv]
        by_cases hfound : ((m.find? fun e => e.emp_code == jsTrim r.emp_code)).isSome
        · have hstep : employeeStep m r = m := by
            simp only [employeeStep]
            rw [if_pos hv, if_pos hfound]
          rw [hstep]
          exact ih m c hc
        · have hstep : employeeStep m r =
              m ++ [{ emp_code := jsTrim r.emp_code, name := jsTrim r.name,
                      is_active := true }] := by
            simp only [employeeStep]
            rw [if_pos hv, if_neg hfound]
          rw [hstep]
          have hih := ih (m ++ [({ emp_code := jsTrim r.emp_code, name := jsTrim r.name, is_active := true } : Employee)]) c hc
          rw [hih, List.find?_append]
          have hone : (List.find? (fun e => e.emp_code == c)
              [({ emp_code := jsTrim r.emp_code, name := jsTrim r.name, is_active := true } : Employee)]) = none := by
            simp [List.find?_cons, hbeq]
          rw [hone, Option.or_none]
    · have hstep : employeeStep m r = m := by
        simp only [employeeStep]
        rw [if_neg hv]
      have hpredr : (jsTrim r.emp_code == c && !(jsTrim r.name == "")) = false := by
        by_contra hx
        rw [Bool.not_eq_false, Bool.and_eq_true] at hx
        obtain ⟨h1, h2⟩ := hx
        rw [beq_iff_eq] at h1
        rw [Bool.not_eq_true', beq_eq_false_iff_ne] at h2
        exact hv ⟨by rw [h1]; exact hc, h2⟩
      have hfv : firstValidRecord c (r :: t) = firstValidRecord c t := by
        simp only [firstValidRecord, List.find?_cons, hpredr]
      rw [hfv, hstep]
      exact ih m c hc

theorem employee_keys_nodup (rs : List EmployeeRecord) :
    ∀ m : List Employee, ((m.map Employee.emp_code).Nodup) →
      (((rs.foldl employeeStep m).map Employee.emp_code).Nodup) := by
  induction rs with
  | nil => intro m h; simpa using h
  | cons r t ih =>
    intro m h
    rw [List.foldl_cons]
    apply ih
    by_cases hv : jsTrim r.emp_code ≠ "" ∧ jsTrim r.name ≠ ""
    · by_cases hfound : ((m.find? fun e => e.emp_code == jsTrim r.emp_code)).isSome
      · have hstep : employeeStep m r = m := by
          simp only [employeeStep]
          rw [if_pos hv, if_pos hfound]
        rw [hstep]
        exact h
      · have hstep : employeeStep m r =
            m ++ [{ emp_code := jsTrim r.emp_code, name := jsTrim r.name,
                    is_active := true }] := by
          simp only [employeeStep]
          rw [if_pos hv, if_neg hfound]
        rw [hstep]
        have hnone : (m.find? fun e => e.emp_code == jsTrim r.emp_code) = none :=
          Option.not_isSome_iff_eq_none.mp hfound
        rw [List.find?_eq_none] at hnone
        rw [List.map_append, List.nodup_append]
        refine ⟨h, by simp, ?_⟩
        intro x hx hx2
        simp only [List.map_cons, List.map_nil, List.mem_singleton] at hx2
        rw [List.mem_map] at hx
        obtain ⟨e, he, hek⟩ := hx
        have hne := hnone e he
        rw [hx2] at hek
        exact hne (beq_iff_eq.mpr hek)
    · have hstep : employeeStep m r = m := by
        simp only [employeeStep]
        rw [if_neg hv]
      rw [hstep]
      exact h

theorem dedup_keys_nodup (rs : List EmployeeRecord) :
    ((dedupEmployees rs).map Employee.emp_code).Nodup :=
  employee_keys_nodup rs [] (by simp)

theorem employee_entry_prop (rs : List EmployeeRecord) :
    ∀ m : List Employee,
      (∀ e ∈ m, e.emp_code ≠ "" ∧ jsTrim e.emp_code = e.emp_code ∧
        e.name ≠ "" ∧ jsTrim e.name = e.name ∧ e.is_active = true) →
      ∀ e ∈ rs.foldl employeeStep m,
        e.emp_code ≠ "" ∧ jsTrim e.emp_code = e.emp_code ∧
          e.name ≠ "" ∧ jsTrim e.name = e.name ∧ e.is_active = true := by
  induction rs with
  | nil => intro m h; simpa using h
  | cons r t ih =>
    intro m h
    rw [List.foldl_cons]
    apply ih
    intro e he
    by_cases hv : jsTrim r.emp_code ≠ "" ∧ jsTrim r.name ≠ ""
    · by_cases hfound : ((m.find? fun e2 => e2.emp_code == jsTrim r.emp_code)).isSome
      · have hstep : employeeStep m r = m := by
          simp only [employeeStep]
          rw [if_pos hv, if_pos hfound]
        rw [hstep] at he
        exact h e he
      · have hstep : employeeStep m r =
            m ++ [{ emp_code := jsTrim r.emp_code, name := jsTrim r.name,
                    is_active := true }] := by
          simp only [employeeStep]
          rw [if_pos hv, if_neg hfound]
        rw [hstep, List.mem_append] at he
        cases he with
        | inl he => exact h e he
        | inr he =>
          simp only [List.mem_singleton] at he
          subst he
          exact ⟨hv.1, jsTrim_idem r.emp_code, hv.2, jsTrim_idem r.name, rfl⟩
    · have hstep : employeeStep m r = m := by
        simp only [employeeStep]
        rw [if_neg hv]
      rw [hstep] at he
      exact h e he

theorem countP_key_of_find? (m : List Employee) (c : String)
    (hnodup : (m.map Employee.emp_code).Nodup) :
    m.countP (fun e => e.emp_code == c) =
      if ((m.find? fun e => e.emp_code == c)).isSome then 1 else 0 := by
  induction m with
  | nil => rfl
  | cons e t ih =>
    simp only [List.map_cons, List.nodup_cons] at hnodup
    obtain ⟨hnotin, hnodup2⟩ := hnodup
    by_cases he : (e.emp_code == c) = true
    · have hzero : t.countP (fun e2 => e2.emp_code == c) = 0 := by
        rw [List.countP_eq_zero]
        intro e2 he2
        rw [beq_iff_eq] at he ⊢
        intro hx
        apply hnotin
        rw [List.mem_map]
        exact ⟨e2, he2, by rw [hx, he]⟩
      rw [List.countP_cons, hzero, List.find?_cons]
      simp [he]
    · rw [List.countP_cons, List.find?_cons]
      have he2 : (e.emp_code == c) = false := by
        rw [Bool.not_eq_true] at he
        exact he
      simp only [he2, if_false]
      rw [ih hnodup2]
      simp

theorem firstValid_max (c : String) (rs : List EmployeeRecord)
    (hsorted : rs.Pairwise (fun a b => b.date ≤ a.date))
    (hnames : ∀ r2 ∈ rs, jsTrim r2.emp_code = c → jsTrim r2.name ≠ "")
    (r0 : EmployeeRecord) (hr0 : r0 ∈ rs) (hr0c : jsTrim r0.emp_code = c) :
    ∃ r, firstValidRecord c rs = some r ∧ r ∈ rs ∧ jsTrim r.emp_code = c ∧
      ∀ r2 ∈ rs, jsTrim r2.emp_code = c → r2.date ≤ r.date := by
  induction rs with
  | nil => simp at hr0
  | cons a t ih =>
    rw [List.pairwise_cons] at hsorted
    obtain ⟨hhead, htail⟩ := hsorted
    by_cases hpa : (jsTrim a.emp_code == c && !(jsTrim a.name == "")) = true
    · refine ⟨a, ?_, List.mem_cons_self a t, ?_, ?_⟩
      · simp [firstValidRecord, List.find?_cons, hpa]
      · rw [Bool.and_eq_true, beq_iff_eq] at hpa
        exact hpa.1
      · intro r2 hr2 _
        cases hr2 with
        | head => exact le_refl _
        | tail _ hmem => exact hhead r2 hmem
    · have hac : jsTrim a.emp_code ≠ c := by
        intro hx
        apply hpa
        rw [Bool.and_eq_true, beq_iff_eq]
        refine ⟨hx, ?_⟩
        rw [Bool.not_eq_true', beq_eq_false_iff_ne]
        exact hnames a (List.mem_cons_self a t) hx
      have hr0t : r0 ∈ t := by
        cases hr0 with
        | head => exact absurd hr0c hac
        | tail _ hmem => exact hmem
      have hnames2 : ∀ r2 ∈ t, jsTrim r2.emp_code = c → jsTrim r2.name ≠ "" :=
        fun r2 h2 => hnames r2 (List.mem_cons_of_mem a h2)
      obtain ⟨r, hfv, hmem, hcode, hmax⟩ := ih htail hnames2 hr0t
      refine ⟨r, ?_, List.mem_cons_of_mem a hmem, hcode, ?_⟩
      · have hpaf : (jsTrim a.emp_code == c && !(jsTrim a.name == "")) = false := by
          rw [Bool.not_eq_true] at hpa
          exact hpa
        simp only [firstValidRecord, List.find?_cons, hpaf]
        exact hfv
      · intro r2 hr2 h2c
        cases hr2 with
        | head => exact absurd h2c hac
        | tail _ hmem2 => exact hmax r2 hmem2 h2c

end Boopin

namespace Boopin

/-- Claim C1: in the weekly aggregation of `loadWeeklyEmployeeData`, every
employee code occurring in the fetched records gets exactly one map entry,
whose `totalDays` is the number of records carrying that code, whose
`presentDays` counts exactly the `'Present'` records and `leaveDays` the
rest, so `presentDays + leaveDays = totalDays`. -/
theorem weekly_grouping_day_partition (rs : List EmployeeRecord) (c : String)
    (hc : c ≠ "") (hocc : 0 < codeCount c rs) :
    ∃ e, ((weeklyGroup rs).find? fun x => x.emp_code == c) = some e ∧
      e.totalDays = codeCount c rs ∧
      e.presentDays = presentCount c rs ∧
      e.leaveDays = leaveCount c rs ∧
      e.presentDays + e.leaveDays = e.totalDays := by
  have hinv := weeklyGroup_inv rs c hc
  cases hfind : ((weeklyGroup rs).find? fun x => x.emp_code == c) with
  | none =>
    have hzero := hinv.1 hfind
    omega
  | some e =>
    obtain ⟨hkey, ht, hpd, hld, hhd⟩ := hinv.2 e hfind
    refine ⟨e, rfl, ht, hpd, hld, ?_⟩
    rw [ht, hpd, hld]
    exact present_add_leave c rs

/-- Concrete instance of claim C1 on a two-record week. -/
theorem weekly_grouping_day_partition_witness :
    ("1" : String) ≠ "" ∧ 0 < codeCount "1" [sampleRecord, sampleLeaveRecord] ∧
      (∃ e, ((weeklyGroup [sampleRecord, sampleLeaveRecord]).find?
          fun x => x.emp_code == "1") = some e ∧
        e.totalDays = codeCount "1" [sampleRecord, sampleLeaveRecord] ∧
        e.presentDays = presentCount "1" [sampleRecord, sampleLeaveRecord] ∧
        e.leaveDays = leaveCount "1" [sampleRecord, sampleLeaveRecord] ∧
        e.presentDays + e.leaveDays = e.totalDays) :=
  ⟨by decide, by decide,
    weekly_grouping_day_partition [sampleRecord, sampleLeaveRecord] "1"
      (by decide) (by decide)⟩

/-- Claim C2: the weekly aggregation's `totalHours` for a code is the sum of
`work_hours` over that code's `'Present'` records (missing hours counting 0),
and the one-decimal rounding `Math.round(x*10)/10` agrees with standard
round-half-up at the tenths place on exact rationals: it returns the multiple
of one tenth within `[x - 1/20, x + 1/20)`, ties rounded up. -/
theorem weekly_totalHours_and_rounding (rs : List EmployeeRecord) (c : String)
    (hc : c ≠ "") (hocc : 0 < codeCount c rs) :
    (∃ e, ((weeklyGroup rs).find? fun x => x.emp_code == c) = some e ∧
      e.totalHours = presentHours c rs) ∧
    ∀ x : ℚ, roundHours x = roundHalfUpTenths x ∧
      -(1 / 20 : ℚ) ≤ x - roundHours x ∧ x - roundHours x < 1 / 20 := by
  constructor
  · have hinv := weeklyGroup_inv rs c hc
    cases hfind : ((weeklyGroup rs).find? fun x => x.emp_code == c) with
    | none =>
      have hzero := hinv.1 hfind
      omega
    | some e =>
      exact ⟨e, rfl, (hinv.2 e hfind).2.2.2.2⟩
  · intro x
    refine ⟨by rw [roundHours, roundHalfUpTenths, jsMathRound, round_eq, mul_comm], ?_, ?_⟩
    · rw [roundHours, jsMathRound]
      have h1 := Int.floor_le (x * 10 + 1 / 2)
      linarith
    · rw [roundHours, jsMathRound]
      have h2 := Int.lt_floor_add_one (x * 10 + 1 / 2)
      linarith

/-- Concrete instance of claim C2 on a two-record week. -/
theorem weekly_totalHours_and_rounding_witness :
    ("1" : String) ≠ "" ∧ 0 < codeCount "1" [sampleRecord, sampleLeaveRecord] ∧
      ((∃ e, ((weeklyGroup [sampleRecord, sampleLeaveRecord]).find?
          fun x => x.emp_code == "1") = some e ∧
        e.totalHours = presentHours "1" [sampleRecord, sampleLeaveRecord]) ∧
      ∀ x : ℚ, roundHours x = roundHalfUpTenths x ∧
        -(1 / 20 : ℚ) ≤ x - roundHours x ∧ x - roundHours x < 1 / 20) :=
  ⟨by decide, by decide,
    weekly_totalHours_and_rounding [sampleRecord, sampleLeaveRecord] "1"
      (by decide) (by decide)⟩

/-- Claim C3 (amended): `loadEmployees` yields exactly one entry per distinct
non-empty trimmed employee code that occurs on at least one record whose
trimmed name is also non-empty; records with blank trimmed code or name are
skipped, so codes appearing only on such records get no entry. -/
theorem loadEmployees_dedup_unique (rs : List EmployeeRecord) (c : String) :
    (loadEmployeesResult rs).countP (fun e => e.emp_code == c) =
      if c ≠ "" ∧ ((firstValidRecord c rs)).isSome then 1 else 0 := by
  have hperm := List.mergeSort_perm (dedupEmployees rs) fun a b => a.name ≤ b.name
  rw [loadEmployeesResult, List.Perm.countP_eq _ hperm]
  by_cases hc : c = ""
  · rw [if_neg (by simp [hc])]
    rw [List.countP_eq_zero]
    intro e he
    have hp := employee_entry_prop rs [] (by simp) e he
    simp only [beq_iff_eq]
    rw [hc]
    exact hp.1
  · rw [countP_key_of_find? _ _ (dedup_keys_nodup rs)]
    have hfind := employee_find?_foldl rs [] c hc
    simp only [List.find?_nil, Option.none_or] at hfind
    rw [show (dedupEmployees rs) = rs.foldl employeeStep [] from rfl, hfind]
    cases hfv : firstValidRecord c rs with
    | none => simp [hc]
    | some r => simp [hc]

/-- Claim C3 fails as frozen: a record whose name trims to the empty string is
skipped, so its distinct employee code is omitted from the employee list. -/
theorem loadEmployees_dedup_counterexample :
    loadEmployeesResult [blankNameRecord] = [] ∧ blankNameRecord.emp_code = "7" := by
  constructor
  · have hd : dedupEmployees [blankNameRecord] = [] := by decide
    rw [loadEmployeesResult, hd, List.mergeSort_nil]
  · rfl

/-- Claim C4: when the fetched records are ordered by date descending and an
employee code appears (with non-blank names), the employee list assigns that
code the trimmed name of a record of maximal date among that code's records. -/
theorem loadEmployees_most_recent_name (rs : List EmployeeRecord) (c : String)
    (hc : c ≠ "")
    (hsorted : rs.Pairwise (fun a b => b.date ≤ a.date))
    (hnames : ∀ r2 ∈ rs, jsTrim r2.emp_code = c → jsTrim r2.name ≠ "")
    (r0 : EmployeeRecord) (hr0 : r0 ∈ rs) (hr0c : jsTrim r0.emp_code = c) :
    ∃ r, r ∈ rs ∧ jsTrim r.emp_code = c ∧
      (∀ r2 ∈ rs, jsTrim r2.emp_code = c → r2.date ≤ r.date) ∧
      ∃ e ∈ loadEmployeesResult rs, e.emp_code = c ∧ e.name = jsTrim r.name := by
  obtain ⟨r, hfv, hmem, hcode, hmax⟩ := firstValid_max c rs hsorted hnames r0 hr0 hr0c
  refine ⟨r, hmem, hcode, hmax, ?_⟩
  have hfind := employee_find?_foldl rs [] c hc
  simp only [List.find?_nil, Option.none_or] at hfind
  rw [hfv] at hfind
  simp only [Option.map_some'] at hfind
  have hmem2 : ({ emp_code := c, name := jsTrim r.name, is_active := true } : Employee)
      ∈ dedupEmployees rs := List.mem_of_find?_eq_some hfind
  have hperm := List.mergeSort_perm (dedupEmployees rs) fun a b => a.name ≤ b.name
  refine ⟨{ emp_code := c, name := jsTrim r.name, is_active := true }, ?_, rfl, rfl⟩
  rw [loadEmployeesResult]
  exact hperm.mem_iff.mpr hmem2

/-- Concrete instance of claim C4: employee code 1 appears as Alice on
2025-01-06 and as Alicia on 2025-01-07; the later name wins. -/
theorem loadEmployees_most_recent_name_witness :
    ∃ r, r ∈ [renamedRecord, sampleRecord] ∧ jsTrim r.emp_code = "1" ∧
      (∀ r2 ∈ [renamedRecord, sampleRecord], jsTrim r2.emp_code = "1" →
        r2.date ≤ r.date) ∧
      ∃ e ∈ loadEmployeesResult [renamedRecord, sampleRecord],
        e.emp_code = "1" ∧ e.name = jsTrim r.name := by
  apply loadEmployees_most_recent_name [renamedRecord, sampleRecord] "1"
    (by decide) ?_ (by decide) renamedRecord (List.mem_cons_self _ _) (by decide)
  simp only [List.pairwise_cons, List.mem_singleton, List.not_mem_nil]
  refine ⟨?_, ?_, List.Pairwise.nil⟩
  · intro x hx
    subst hx
    rw [String.le_iff_toList_le]
    decide
  · intro x hx
    exact absurd hx (by simp)

/-- Claim C10: every entry of the employee list built by `loadEmployees` has a
non-empty trimmed code and name, `is_active` set, pairwise distinct codes, and
the list is sorted ascending by name. -/
theorem loadEmployees_result_invariant (rs : List EmployeeRecord) :
    (∀ e ∈ loadEmployeesResult rs, e.emp_code ≠ "" ∧ jsTrim e.emp_code = e.emp_code ∧
        e.name ≠ "" ∧ jsTrim e.name = e.name ∧ e.is_active = true) ∧
    ((loadEmployeesResult rs).map Employee.emp_code).Nodup ∧
    (loadEmployeesResult rs).Pairwise (fun a b => a.name ≤ b.name) := by
  have hperm := List.mergeSort_perm (dedupEmployees rs) fun a b => a.name ≤ b.name
  refine ⟨?_, ?_, ?_⟩
  · intro e he
    rw [loadEmployeesResult] at he
    exact employee_entry_prop rs [] (by simp) e (hperm.mem_iff.mp he)
  · rw [loadEmployeesResult]
    exact (dedup_keys_nodup rs).perm (hperm.map Employee.emp_code).symm
  · rw [loadEmployeesResult]
    refine List.Pairwise.imp ?_ (List.sorted_mergeSort ?_ ?_ (dedupEmployees rs))
    · intro a b h
      simpa using h
    · intro a b c2 hab hbc
      simp only [decide_eq_true_eq] at hab hbc ⊢
      exact le_trans hab hbc
    · intro a b
      simp only [Bool.or_eq_true, decide_eq_true_eq]
      exact le_total a.name b.name

end Boopin

namespace Boopin

/-- Claim C9: `calculateAttendanceRate` returns 0 when `totalDays` is 0 and
`Math.round((presentDays / totalDays) * 100)` otherwise, and it is the value
serialised in the last (`Attendance Rate (%)`) column of every weeklyDetails
CSV data line, so the column is always defined. -/
theorem calculateAttendanceRate_defined (p t : ℕ) (row : WeeklyEmployeeData) :
    calculateAttendanceRate p 0 = 0 ∧
    calculateAttendanceRate p (t + 1) =
      jsMathRound (((p : ℚ) / ((t + 1 : ℕ) : ℚ)) * 100) ∧
    (weeklyDetailsRow row).getLast? = some (escapeCSV (some (toString
      (calculateAttendanceRate row.presentDays row.totalDays)))) := by
  refine ⟨by rw [calculateAttendanceRate, if_pos rfl], ?_, rfl⟩
  rw [calculateAttendanceRate, if_neg (Nat.succ_ne_zero t)]

/-- Claim C6: `escapeCSV` maps null/undefined to the empty string; a string
containing a comma, double quote or newline is wrapped in double quotes with
every internal quote doubled; any other string is returned unchanged. -/
theorem escapeCSV_spec :
    escapeCSV none = "" ∧
    ∀ s : String,
      ((∃ ch ∈ s.data, ch = ',' ∨ ch = '"' ∨ ch = '\n') →
        (escapeCSV (some s)).data =
          '"' :: ((s.data.flatMap fun ch => if ch = '"' then ['"', '"'] else [ch])
            ++ ['"'])) ∧
      ((∀ ch ∈ s.data, ch ≠ ',' ∧ ch ≠ '"' ∧ ch ≠ '\n') →
        escapeCSV (some s) = s) := by
  refine ⟨rfl, fun s => ⟨?_, ?_⟩⟩
  · intro hex
    have hq : needsQuoting s = true := by
      rw [needsQuoting, List.any_eq_true]
      obtain ⟨ch, hch, hor⟩ := hex
      refine ⟨ch, hch, ?_⟩
      rcases hor with h | h | h <;> simp [h]
    simp only [escapeCSV]
    rw [if_pos hq]
    simp [String.data_append, doubleQuotes]
  · intro hall
    have hq : needsQuoting s = false := by
      rw [needsQuoting, List.any_eq_false]
      intro ch hch
      obtain ⟨h1, h2, h3⟩ := hall ch hch
      simp [h1, h2, h3]
    simp only [escapeCSV]
    rw [if_neg (by simp [hq])]

/-- Concrete instances of claim C6: a value with a comma is quoted, a plain
value passes through unchanged. -/
theorem escapeCSV_spec_witness :
    (escapeCSV (some "a,b")).data =
      '"' :: ((("a,b" : String).data.flatMap
        fun ch => if ch = '"' then ['"', '"'] else [ch]) ++ ['"']) ∧
    escapeCSV (some "ab") = "ab" :=
  ⟨(escapeCSV_spec.2 "a,b").1 (by decide), (escapeCSV_spec.2 "ab").2 (by decide)⟩

/-- Claim C5: for each export kind the header row equals the column list of
section 6 of the spec, every data line has exactly as many fields as the
header (9 for daily), and a non-empty record list produces the header plus one
data line per record. -/
theorem exportToCSV_columns :
    dailyHeaders = specDailyColumns ∧
    weeklyHeaders = specWeeklyColumns ∧
    weeklyDetailsHeaders = specWeeklyDetailsColumns ∧
    employeeHeaders = specEmployeeColumns ∧
    dailyHeaders.length = 9 ∧
    (∀ row : DailySummary, (dailyRow row).length = dailyHeaders.length) ∧
    (∀ row : WeeklySummary, (weeklyRow row).length = weeklyHeaders.length) ∧
    (∀ row : WeeklyEmployeeData,
      (weeklyDetailsRow row).length = weeklyDetailsHeaders.length) ∧
    (∀ row : EmployeeRecord, (employeeRow row).length = employeeHeaders.length) ∧
    (∀ (r : DailySummary) (rest : List DailySummary),
      exportToCSV (.daily (r :: rest)) =
        some (csvOf dailyHeaders ((r :: rest).map dailyRow)) ∧
      ((r :: rest).map dailyRow).length = rest.length + 1) ∧
    (∀ (r : WeeklySummary) (rest : List WeeklySummary),
      exportToCSV (.weekly (r :: rest)) =
        some (csvOf weeklyHeaders ((r :: rest).map weeklyRow))) ∧
    (∀ (r : WeeklyEmployeeData) (rest : List WeeklyEmployeeData),
      exportToCSV (.weeklyDetails (r :: rest)) =
        some (csvOf weeklyDetailsHeaders ((r :: rest).map weeklyDetailsRow))) ∧
    (∀ (r : EmployeeRecord) (rest : List EmployeeRecord),
      exportToCSV (.employee (r :: rest)) =
        some (csvOf employeeHeaders ((r :: rest).map employeeRow)) ∧
      exportToCSV (.monthly (r :: rest)) =
        some (csvOf employeeHeaders ((r :: rest).map employeeRow))) := by
  refine ⟨rfl, rfl, rfl, rfl, rfl, fun row => rfl, fun row => rfl, fun row => rfl,
    fun row => rfl, fun r rest => ⟨?_, by simp⟩, fun r rest => ?_, fun r rest => ?_,
    fun r rest => ⟨?_, ?_⟩⟩ <;>
  · simp [exportToCSV]

/-- Claim C7 fails as frozen: on a failed weekly query,
`loadWeeklyEmployeeData` does not reset the stored employee-record state — a
previously stored record survives the error. -/
theorem weekly_error_keeps_records_counterexample :
    (loadWeeklyEmployeeDataOp sampleState (.error .other)).1.employeeRecords =
      [sampleRecord] ∧ ([sampleRecord] : List EmployeeRecord) ≠ [] := by
  exact ⟨rfl, by simp⟩

theorem append_ne_empty_left (a b : String) (ha : a.data ≠ []) : a ++ b ≠ "" := by
  intro h
  have h2 := congrArg String.data h
  rw [String.data_append] at h2
  exact ha (List.append_eq_nil.mp h2).1

/-- Claim C7 (amended): each load operation catches a query error without
throwing, returns `data` carrying no records together with a non-empty error
string of the form `context: message`, stores that string in the error state,
and resets the state it owns (`employees` for `loadEmployees`,
`employeeRecords` for the daily and monthly loaders; the weekly loader stores
no records and leaves `employeeRecords` unchanged); on success the returned
error is null. -/
theorem load_operations_error_handling
    (st : HookState) (e : SupabaseErrorValue) (rs : List EmployeeRecord) :
    (∃ rest, handleSupabaseError e "Employee Loading" =
      "Employee Loading" ++ ": " ++ rest) ∧
    handleSupabaseError e "Employee Loading" ≠ "" ∧
    ((loadEmployeesOp st (.error e)).2.error =
        some (handleSupabaseError e "Employee Loading") ∧
      (loadEmployeesOp st (.error e)).2.data = none ∧
      (loadEmployeesOp st (.error e)).1.employees = [] ∧
      (loadEmployeesOp st (.error e)).1.error =
        handleSupabaseError e "Employee Loading" ∧
      (loadEmployeesOp st (.ok rs)).2.error = none) ∧
    ((loadEmployeeDataOp st (.error e)).2.error =
        some (handleSupabaseError e "Employee Records Loading") ∧
      (loadEmployeeDataOp st (.error e)).2.data = none ∧
      (loadEmployeeDataOp st (.error e)).1.employeeRecords = [] ∧
      (loadEmployeeDataOp st (.ok rs)).2.error = none) ∧
    ((loadEmployeeMonthlyDataOp st (.error e)).2.error =
        some (handleSupabaseError e "Monthly Employee Data Loading") ∧
      (loadEmployeeMonthlyDataOp st (.error e)).2.data = none ∧
      (loadEmployeeMonthlyDataOp st (.error e)).1.employeeRecords = [] ∧
      (loadEmployeeMonthlyDataOp st (.ok rs)).2.error = none) ∧
    ((loadWeeklyEmployeeDataOp st (.error e)).2.error =
        some (handleSupabaseError e "Weekly Employee Data Loading") ∧
      (loadWeeklyEmployeeDataOp st (.error e)).2.data = some [] ∧
      (loadWeeklyEmployeeDataOp st (.error e)).1.employeeRecords =
        st.employeeRecords ∧
      (loadWeeklyEmployeeDataOp st (.ok rs)).2.error = none) := by
  refine ⟨?_, ?_, ⟨rfl, rfl, rfl, rfl, rfl⟩, ⟨rfl, rfl, rfl, rfl⟩,
    ⟨rfl, rfl, rfl, rfl⟩, ⟨rfl, rfl, rfl, rfl⟩⟩
  · cases e with
    | withMessage m => exact ⟨m, rfl⟩
    | plainString s => exact ⟨s, rfl⟩
    | other => exact ⟨"Unknown error occurred", by decide⟩
  · cases e with
    | withMessage m => exact append_ne_empty_left _ _ (by decide)
    | plainString s => exact append_ne_empty_left _ _ (by decide)
    | other => exact append_ne_empty_left _ _ (by decide)

end Boopin

namespace Boopin

end Boopin
